import Mathlib

/-!
Verification of the PegNet mining client core (package `opr` and package
`networkMiner`) against its natural-language specification.

The Go source is embedded shallowly:
* machine integers (`uint64`, Go `int`) become `Nat`/`Int` with explicit
  `% 2^64` where overflow matters;
* byte slices become `List Nat` (each element intended `< 256`, stated as a
  hypothesis where it matters);
* the LXR hash engine, the chain-id derivation (`common` package code not in
  this tree) and the address decoder are abstract parameters, since their
  internals are external collaborators of the components under verification;
* `float64` asset prices become `ℚ` (the code only compares them to zero);
* the stateful mining loop becomes an explicit step function on a record
  state, and the cancellation channel becomes a monotone visibility predicate
  on iteration indices.
-/

namespace Pegnet

/-! ## Nonce encoding (opr.go, `Mine`, lines 168-171)

The Go loop is

    nonce = nonce[:0]
    for j := i; j > 0; j = j >> 8 {
        nonce = append(nonce, byte(j))
    }

so the byte `j % 256` (the LEAST significant byte) is appended first. -/

/-- Nonce bytes produced at iteration `i` of `Mine`: the low byte of the
counter is appended first, then the counter is shifted right by 8 bits. -/
def nonceBytes : ℕ → List ℕ
  | 0 => []
  | j + 1 => ((j + 1) % 256) :: nonceBytes ((j + 1) / 256)
  decreasing_by exact Nat.div_lt_self (Nat.succ_pos j) (by norm_num)

/-- Spec-side encoder, following the specification words: the base-256 digits
of `i` from most significant to least significant with leading zero bytes
dropped (a minimal big-endian representation). -/
def beMinimal (i : ℕ) : List ℕ := (Nat.digits 256 i).reverse

/-! ## Difficulty (opr.go, `ComputeDifficulty`, lines 135-147) -/

/-- Difficulty of a nonce for a given record hash, as computed by
`ComputeDifficulty`: hash the concatenation `OPRHash ++ nonce`, then fold the
first eight bytes of the digest with `difficulty = difficulty<<8 + h[i]` in
`uint64` arithmetic.  The hash engine is a parameter (the LXR hash is an
external collaborator). -/
def computeDifficulty (hash : List ℕ → List ℕ) (oprHash nonce : List ℕ) : ℕ :=
  let h := hash (oprHash ++ nonce)
  (List.range 8).foldl (fun d i => (d <<< 8 + h.getD i 0) % 2 ^ 64) 0

/-- Spec-side reading of the difficulty: the first 8 bytes of the digest
interpreted as an unsigned 64-bit big-endian integer, byte 0 most
significant. -/
def beU64 (bs : List ℕ) : ℕ :=
  (List.range 8).foldr (fun i acc => bs.getD i 0 * 2 ^ (8 * (7 - i)) + acc) 0

/-! ## The record and the mining loop (opr.go, `Mine`, lines 152-186)

The mining-relevant state of an `OraclePriceRecord`.  `Difficulty` is a Go
`uint64`; `Entry.ExtIDs[0]` is the best-nonce slot of the factom entry; the
remaining fields form the record body and the context that `Mine` must not
touch. -/
structure OraclePriceRecord where
  difficulty : ℕ
  entryExtID0 : List ℕ
  oprHash : List ℕ
  entryContent : List ℕ
  oprChainID : String
  dbht : ℤ
  winPreviousOPR : Fin 10 → String
  coinbasePNTAddress : String
  factomDigitalID : List String
  assets : List (String × ℚ)
  grade : ℚ

/-- Body of one iteration `i` of the `Mine` loop: compute the nonce for the
counter `i`, compute its difficulty, and overwrite `Difficulty` and
`Entry.ExtIDs[0]` together exactly when the new difficulty strictly exceeds
the stored one. -/
def mineStep (hash : List ℕ → List ℕ) (opr : OraclePriceRecord) (i : ℕ) :
    OraclePriceRecord :=
  let nonce := nonceBytes i
  let diff := computeDifficulty hash opr.oprHash nonce
  if opr.difficulty < diff then
    { opr with difficulty := diff, entryExtID0 := nonce }
  else
    opr

/-- State of the record after the first `n` completed iterations of `Mine`
(iterations use counter values `0, 1, …, n-1`). -/
def mineRun (hash : List ℕ → List ℕ) (opr : OraclePriceRecord) : ℕ → OraclePriceRecord
  | 0 => opr
  | n + 1 => mineStep hash (mineRun hash opr n) n

/-- Number of completed difficulty computations of a `Mine` run, given the
iteration index at whose top-of-loop check the `StopMining` signal is first
visible: the non-blocking `select` at the top of each iteration exits the
loop at the first check that sees the signal, so exactly that many
iterations ran to completion. -/
def mineExitIndex (cancel : ℕ → Bool) (h : ∃ t, cancel t = true) : ℕ :=
  Nat.find h

/-- Final record state of a cancelled `Mine` run: the loop breaks out of
`miningloop` without touching the record, leaving the state after the last
completed iteration in place. -/
def mineFinal (hash : List ℕ → List ℕ) (opr : OraclePriceRecord)
    (cancel : ℕ → Bool) (h : ∃ t, cancel t = true) : OraclePriceRecord :=
  mineRun hash opr (mineExitIndex cancel h)

/-- Record initialization performed by `GetOPRecord` (opr.go, lines 352-368):
pull the asset values, empty the nonce slot (`ExtIDs = [][]byte{{}}`),
serialize the record body (`json.Marshal`) into the entry content, and hash
that content once into `OPRHash`.  The price feed and the JSON serializer
are external collaborators, taken as parameters. -/
def getOPRecord (pull : List (String × ℚ)) (serialize : OraclePriceRecord → List ℕ)
    (hash : List ℕ → List ℕ) (opr : OraclePriceRecord) : OraclePriceRecord :=
  let o1 := { opr with assets := pull, entryExtID0 := [] }
  { o1 with entryContent := serialize o1, oprHash := hash (serialize o1) }

/-! ## Validation (opr.go, `Validate`, lines 83-117) -/

/-- Config lookups used by `Validate`: `c.String key` returns a value or an
error, embedded as `Option String`. -/
structure GoConfig where
  minerProtocol : Option String
  minerNetwork : Option String

/-- External collaborators of `Validate`, taken as abstract parameters:
`derive p n` stands for
`base58.Encode(common.ComputeChainIDFromStrings([p, n, common.OPRChainTag]))`
(the fixed chain tag is baked into the function), and `convertPegAddrToRaw`
stands for `common.ConvertPegAddrToRaw`, returning the decoded address
prefix and raw bytes, or `none` on a decode error.  `allAssets` is the
required-asset list `common.AllAssets`. -/
structure ChainEnv where
  derive : String → String → String
  convertPegAddrToRaw : String → Option (String × List ℕ)
  allAssets : List String

/-- Modelled from the spec: `OraclePriceRecordAssetList.Contains` (its Go
source is not under src/) — the asset map contains every key in the required
set. -/
def assetsContain (assets : List (String × ℚ)) (required : List String) : Bool :=
  required.all (fun r => assets.any (fun kv => kv.1 == r))

/-- Effective process-wide chain id used by a `Validate` call: the cached
global `OPRChainID` when non-empty, otherwise the value derived (and cached)
from the config's protocol and network names. -/
def effectiveChainID (env : ChainEnv) (global protocol network : String) : String :=
  if global.length = 0 then env.derive protocol network else global

/-- Shallow embedding of `Validate`: returns the boolean verdict together
with the new value of the process-wide `OPRChainID` global (the one piece of
mutable state the function touches).  The checks appear in the source order
and short-circuit on the first failure; the function is total — malformed
input yields `false`, never a panic. -/
def validate (env : ChainEnv) (global : String) (opr : OraclePriceRecord)
    (c : GoConfig) : Bool × String :=
  match c.minerProtocol, c.minerNetwork with
  | some protocol, some network =>
    let g := effectiveChainID env global protocol network
    if opr.oprChainID ≠ g then (false, g)
    else
      match env.convertPegAddrToRaw opr.coinbasePNTAddress with
      | none => (false, g)
      | some (pre, _) =>
        if pre ≠ "tPNT" then (false, g)
        else if opr.assets.any (fun kv => decide (kv.2 = 0 ∧ kv.1 ≠ "PNT")) then
          (false, g)
        else if ¬ assetsContain opr.assets env.allAssets then (false, g)
        else (true, g)
  | _, _ => (false, global)

/-! ## Network layer (networkMiner/tcpServer.go)

The read loop `listen` (lines 49-61) is embedded as a trace semantics: a
connection's lifetime is the list of outcomes of successive gob decodes —
`Except.ok m` for a successful decode, `Except.error e` for a decode
failure (the peer closing the socket surfaces as a non-nil error such as
EOF).  `listen` maps the outcome list to the list of externally observable
events: the new-client callback, message-received callbacks, the socket
close and the connection-closed callback. -/

/-- Observable events of one connection's read loop. -/
inductive NetEvent (M E : Type) where
  | newClient : NetEvent M E
  | msgReceived : M → NetEvent M E
  | sockClose : NetEvent M E
  | connClosed : E → NetEvent M E
deriving DecidableEq

/-- The `for` loop of `listen`: each successful decode invokes the
message-received callback and loops; the first decode failure closes the
socket, invokes the connection-closed callback with the error, and returns.
Decode outcomes after the first failure are never read. -/
def listenLoop {M E : Type} : List (Except E M) → List (NetEvent M E)
  | [] => []
  | .ok m :: rest => .msgReceived m :: listenLoop rest
  | .error e :: _ => [.sockClose, .connClosed e]

/-- Whole read loop of a connection: `listen` first invokes the new-client
callback (line 50), then runs the decode loop. -/
def listen {M E : Type} (results : List (Except E M)) : List (NetEvent M E) :=
  .newClient :: listenLoop results

/-- Event classifier for the connection-closed callback. -/
def isConnClosed {M E : Type} : NetEvent M E → Bool
  | .connClosed _ => true
  | _ => false

/-- Event classifier for the message-received callback. -/
def isMsgReceived {M E : Type} : NetEvent M E → Bool
  | .msgReceived _ => true
  | _ => false

/-- Wire message of the miner protocol (tcpServer.go, lines 17-20): an
integer command code plus an opaque data payload, here a byte list. -/
structure NetworkMessage where
  networkCommand : ℤ
  data : List ℕ
deriving DecidableEq

/-- Big-endian 8-byte encoding of a 64-bit unsigned value. -/
def toBytes8 (n : ℕ) : List ℕ :=
  [n / 2 ^ 56 % 256, n / 2 ^ 48 % 256, n / 2 ^ 40 % 256, n / 2 ^ 32 % 256,
   n / 2 ^ 24 % 256, n / 2 ^ 16 % 256, n / 2 ^ 8 % 256, n % 256]

/-- Value of an 8-byte big-endian field. -/
def fromBytes8 (bs : List ℕ) : ℕ :=
  bs.foldl (fun a b => a * 256 + b) 0

/-- Modelled from the spec: the gob wire format used by
`SendNetworkCommand` and the decoder in `listen` (gob is Go's standard
library, not code under src/).  Per the spec's wire-format contract each
message is an independently framed, self-describing `(command:int,
data:opaque)` pair, stream-framed so arbitrary-size payloads decode
deterministically: the command code (as a two's-complement 64-bit value)
and the payload length are fixed 8-byte big-endian fields, followed by the
payload bytes. -/
def encodeMessage (m : NetworkMessage) : List ℕ :=
  toBytes8 (m.networkCommand % 2 ^ 64).toNat ++ toBytes8 m.data.length ++ m.data

/-- Modelled from the spec: decoding one message off the front of a byte
stream, returning the message and the unconsumed remainder, or `none` when
the stream is too short. -/
def decodeMessage (bs : List ℕ) : Option (NetworkMessage × List ℕ) :=
  if 16 ≤ bs.length then
    let u := fromBytes8 (bs.take 8)
    let len := fromBytes8 ((bs.drop 8).take 8)
    let rest := (bs.drop 8).drop 8
    if len ≤ rest.length then
      some (⟨if u < 2 ^ 63 then (u : ℤ) else (u : ℤ) - 2 ^ 64, rest.take len⟩,
        rest.drop len)
    else none
  else none

/-! ## Winner slate of `NewOpr` (opr.go, lines 341-344)

The Go loop is

    winners := <-alert
    for i, w := range winners.ToBePaid {
        opr.WinPreviousOPR[i] = hex.EncodeToString(w.Entry.Hash()[:8])
    }

writing into the fixed `[10]string` array without a bound check: index `i`
panics as soon as the winner list has more than 10 entries.  A winner is
represented by its entry hash (a byte list). -/

/-- Lowercase hexadecimal digit, as produced by Go's `hex.EncodeToString`. -/
def hexDigitChar (n : ℕ) : Char :=
  if n < 10 then Char.ofNat (48 + n) else Char.ofNat (87 + n)

/-- Go's `hex.EncodeToString`: two lowercase hex digits per byte. -/
def hexEncode (bs : List ℕ) : String :=
  String.mk ((bs.map (fun b => [hexDigitChar (b / 16), hexDigitChar (b % 16)])).flatten)

/-- The `NewOpr` winner loop, starting at index `i`: `none` models the
out-of-range panic taken as soon as the running index leaves the 10-element
array. -/
def writeWinners : List (List ℕ) → ℕ → (Fin 10 → String) → Option (Fin 10 → String)
  | [], _, arr => some arr
  | w :: rest, i, arr =>
    if h : i < 10 then
      writeWinners rest (i + 1) (Function.update arr ⟨i, h⟩ (hexEncode (w.take 8)))
    else none

/-- The winner slate written by `NewOpr` over the incoming winner list
`ws`, starting from the zero-value array `init` of the fresh record. -/
def newOprWinners (ws : List (List ℕ)) (init : Fin 10 → String) :
    Option (Fin 10 → String) :=
  writeWinners ws 0 init

/-! ## Concrete instances used to witness the theorems -/

/-- Concrete stand-in for the external collaborators: chain ids are derived
by concatenation, every address decodes to prefix `tPNT`, and the required
asset list is just `PNT`. -/
def exampleEnv : ChainEnv where
  derive := fun p n => p ++ n
  convertPegAddrToRaw := fun _ => some ("tPNT", [])
  allAssets := ["PNT"]

/-- Config whose protocol and network both resolve. -/
def exampleConfig : GoConfig := ⟨some ("P"), some ("N")⟩

/-- Concrete record whose chain id field holds the stale value `A`. -/
def exampleRecordA : OraclePriceRecord where
  difficulty := 0
  entryExtID0 := []
  oprHash := []
  entryContent := []
  oprChainID := "A"
  dbht := 0
  winPreviousOPR := fun _ => ""
  coinbasePNTAddress := "addr"
  factomDigitalID := []
  assets := [("PNT", 0)]
  grade := 0

end Pegnet

open Pegnet

/-- Difficulty never decreases across a step of the mining loop. -/
theorem mineStep_difficulty_le (hash : List ℕ → List ℕ)
    (s : OraclePriceRecord) (i : ℕ) :
    s.difficulty ≤ (mineStep hash s i).difficulty := by
  unfold mineStep
  by_cases h : s.difficulty < computeDifficulty hash s.oprHash (nonceBytes i) <;>
    simp [h]
  exact le_of_lt h

/-- C2: `ComputeDifficulty` returns the first 8 bytes of
`hash(recordHash ++ nonce)` read as an unsigned 64-bit big-endian integer
(byte 0 of the digest is the most significant byte of the result), for every
record hash and nonce, whenever the hash engine's digest has at least 8
bytes, each a byte value.  Higher numeric values are the better difficulties
(the mining loop keeps the numerically greatest value seen). -/
theorem computeDifficulty_be (hash : List ℕ → List ℕ) (oprHash nonce : List ℕ)
    (hlen : 8 ≤ (hash (oprHash ++ nonce)).length)
    (hby : ∀ b ∈ hash (oprHash ++ nonce), b < 256) :
    computeDifficulty hash oprHash nonce = beU64 (hash (oprHash ++ nonce)) := by
  set h := hash (oprHash ++ nonce) with hh
  have hb : ∀ i, i < 8 → h.getD i 0 < 256 := by
    intro i hi
    rw [List.getD_eq_getElem h 0 (lt_of_lt_of_le hi hlen)]
    exact hby _ (List.getElem_mem _)
  have h0 := hb 0 (by norm_num); have h1 := hb 1 (by norm_num)
  have h2 := hb 2 (by norm_num); have h3 := hb 3 (by norm_num)
  have h4 := hb 4 (by norm_num); have h5 := hb 5 (by norm_num)
  have h6 := hb 6 (by norm_num); have h7 := hb 7 (by norm_num)
  simp only [List.getD_eq_getElem?_getD] at h0 h1 h2 h3 h4 h5 h6 h7
  simp only [computeDifficulty, beU64, ← hh]
  norm_num [List.range_succ, Nat.shiftLeft_eq, List.getD_eq_getElem?_getD]
  omega

/-- Witness for C2 at a concrete 32-byte digest. -/
theorem computeDifficulty_be_witness :
    computeDifficulty (fun _ => List.range 32) [] [] = beU64 (List.range 32) := by
  have := computeDifficulty_be (fun _ => List.range 32) [] [] (by decide) (by decide)
  simpa using this

/-- C3 counterexample: at iteration 256 the code's nonce is `[0x00, 0x01]`
(least significant byte first), not the minimal big-endian representation
`[0x01, 0x00]` claimed by the spec. -/
theorem mine_nonce_not_bigEndian :
    nonceBytes 256 = [0, 1] ∧ beMinimal 256 = [1, 0] ∧
      nonceBytes 256 ≠ beMinimal 256 := by
  refine ⟨by simp [nonceBytes], by simp [beMinimal, Nat.digits_def'], ?_⟩
  simp [nonceBytes, beMinimal, Nat.digits_def']

/-- C3 amended: the candidate nonce tried at iteration `i` is the minimal
LITTLE-endian byte representation of the counter `i` — the base-256 digits
of `i` from least significant to most significant, with high-order zero
bytes dropped (so the nonce length still grows logarithmically with the
iteration count). -/
theorem mine_nonce_little_endian (i : ℕ) : nonceBytes i = Nat.digits 256 i := by
  induction i using Nat.strong_induction_on with
  | _ i ih =>
    rcases i with _ | j
    · simp [nonceBytes]
    · rw [Nat.digits_def' (by norm_num : (1:ℕ) < 256) (Nat.succ_pos j)]
      simp only [nonceBytes]
      rw [ih ((j + 1) / 256) (Nat.div_lt_self (Nat.succ_pos j) (by norm_num))]

/-- C4: across one Mine run the stored best difficulty is monotonically
non-decreasing, and the Difficulty field and the best-nonce slot are
overwritten only when the newly computed difficulty strictly exceeds the
stored value, in which case they are updated together in the same step. -/
theorem mine_monotone_and_updates_together (hash : List ℕ → List ℕ)
    (opr : OraclePriceRecord) :
    (∀ n m : ℕ, n ≤ m →
      (mineRun hash opr n).difficulty ≤ (mineRun hash opr m).difficulty)
    ∧ (∀ n : ℕ,
        (mineRun hash opr (n + 1) = mineRun hash opr n
          ∧ computeDifficulty hash (mineRun hash opr n).oprHash (nonceBytes n)
              ≤ (mineRun hash opr n).difficulty)
        ∨ (mineRun hash opr (n + 1) =
            { mineRun hash opr n with
              difficulty :=
                computeDifficulty hash (mineRun hash opr n).oprHash (nonceBytes n),
              entryExtID0 := nonceBytes n }
          ∧ (mineRun hash opr n).difficulty
              < computeDifficulty hash (mineRun hash opr n).oprHash (nonceBytes n))) := by
  constructor
  · intro n m hnm
    induction m, hnm using Nat.le_induction with
    | base => exact le_rfl
    | succ m hm ih => exact le_trans ih (mineStep_difficulty_le hash _ m)
  · intro n
    by_cases h : (mineRun hash opr n).difficulty
        < computeDifficulty hash (mineRun hash opr n).oprHash (nonceBytes n)
    · right
      refine ⟨?_, h⟩
      show mineStep hash (mineRun hash opr n) n = _
      simp [mineStep, h]
    · left
      refine ⟨?_, le_of_not_lt h⟩
      show mineStep hash (mineRun hash opr n) n = _
      simp [mineStep, h]

/-- C5: once the `StopMining` signal has been sent, at most one more
difficulty computation occurs before the loop exits.  The cancellation
visibility predicate `cancel` gives, per iteration index, whether the
non-blocking top-of-loop `select` sees the pending signal; a signal sent
during difficulty computation `k` is visible from check `k + 1` on (channel
receives are not lost), so the run performs at most `k + 1` difficulty
computations — the `k` already finished plus at most the one in flight —
and on exit the last best difficulty and nonce are left in place. -/
theorem mine_cancellation_bound (hash : List ℕ → List ℕ)
    (opr : OraclePriceRecord) (cancel : ℕ → Bool) (k : ℕ)
    (hvis : cancel (k + 1) = true) :
    mineExitIndex cancel ⟨k + 1, hvis⟩ ≤ k + 1
    ∧ (∀ j, j < mineExitIndex cancel ⟨k + 1, hvis⟩ → cancel j = false)
    ∧ mineFinal hash opr cancel ⟨k + 1, hvis⟩ =
        mineRun hash opr (mineExitIndex cancel ⟨k + 1, hvis⟩) := by
  refine ⟨Nat.find_le hvis, ?_, rfl⟩
  intro j hj
  have := Nat.find_min ⟨k + 1, hvis⟩ hj
  simpa using this

/-- Witness for C5: with the signal visible from check 1 on, the run is cut
off after at most one difficulty computation. -/
theorem mine_cancellation_bound_witness :
    mineExitIndex (fun t => decide (1 ≤ t)) ⟨1, by decide⟩ ≤ 1 :=
  (mine_cancellation_bound (fun _ => []) (OraclePriceRecord.mk 0 [] [] [] "" 0
    (fun _ => "") "" [] [] 0) (fun t => decide (1 ≤ t)) 0 (by decide)).1

/-- C7: mining is frame-preserving.  Starting from the record prepared by
`GetOPRecord` — whose `OPRHash` is computed exactly once from the serialized
record body with the nonce slot empty — every field other than `Difficulty`
and the best-nonce slot `Entry.ExtIDs[0]` is unchanged by the entire run,
and the difficulty computation of every iteration reuses that same fixed
record hash, varying only the nonce. -/
theorem mine_frame (pull : List (String × ℚ))
    (serialize : OraclePriceRecord → List ℕ) (hash : List ℕ → List ℕ)
    (base : OraclePriceRecord) (n : ℕ) :
    (getOPRecord pull serialize hash base).oprHash
        = hash (getOPRecord pull serialize hash base).entryContent
    ∧ (getOPRecord pull serialize hash base).entryExtID0 = []
    ∧ (let opr := getOPRecord pull serialize hash base
       let r := mineRun hash opr n
       r.oprHash = opr.oprHash ∧ r.entryContent = opr.entryContent
         ∧ r.oprChainID = opr.oprChainID ∧ r.dbht = opr.dbht
         ∧ r.winPreviousOPR = opr.winPreviousOPR
         ∧ r.coinbasePNTAddress = opr.coinbasePNTAddress
         ∧ r.factomDigitalID = opr.factomDigitalID ∧ r.assets = opr.assets
         ∧ r.grade = opr.grade)
    ∧ (∀ i : ℕ,
        mineRun hash (getOPRecord pull serialize hash base) (i + 1) =
          (let opr := getOPRecord pull serialize hash base
           let s := mineRun hash opr i
           if s.difficulty < computeDifficulty hash opr.oprHash (nonceBytes i) then
             { s with
               difficulty := computeDifficulty hash opr.oprHash (nonceBytes i),
               entryExtID0 := nonceBytes i }
           else s)) := by
  have frame : ∀ (opr : OraclePriceRecord) (m : ℕ),
      let r := mineRun hash opr m
      r.oprHash = opr.oprHash ∧ r.entryContent = opr.entryContent
        ∧ r.oprChainID = opr.oprChainID ∧ r.dbht = opr.dbht
        ∧ r.winPreviousOPR = opr.winPreviousOPR
        ∧ r.coinbasePNTAddress = opr.coinbasePNTAddress
        ∧ r.factomDigitalID = opr.factomDigitalID ∧ r.assets = opr.assets
        ∧ r.grade = opr.grade := by
    intro opr m
    induction m with
    | zero => exact ⟨rfl, rfl, rfl, rfl, rfl, rfl, rfl, rfl, rfl⟩
    | succ m ih =>
      have step : ∀ (s : OraclePriceRecord) (i : ℕ),
          (mineStep hash s i).oprHash = s.oprHash
          ∧ (mineStep hash s i).entryContent = s.entryContent
          ∧ (mineStep hash s i).oprChainID = s.oprChainID
          ∧ (mineStep hash s i).dbht = s.dbht
          ∧ (mineStep hash s i).winPreviousOPR = s.winPreviousOPR
          ∧ (mineStep hash s i).coinbasePNTAddress = s.coinbasePNTAddress
          ∧ (mineStep hash s i).factomDigitalID = s.factomDigitalID
          ∧ (mineStep hash s i).assets = s.assets
          ∧ (mineStep hash s i).grade = s.grade := by
        intro s i
        unfold mineStep
        by_cases h : s.difficulty < computeDifficulty hash s.oprHash (nonceBytes i) <;>
          simp [h]
      obtain ⟨s1, s2, s3, s4, s5, s6, s7, s8, s9⟩ := step (mineRun hash opr m) m
      obtain ⟨i1, i2, i3, i4, i5, i6, i7, i8, i9⟩ := ih
      exact ⟨s1.trans i1, s2.trans i2, s3.trans i3, s4.trans i4, s5.trans i5,
        s6.trans i6, s7.trans i7, s8.trans i8, s9.trans i9⟩
  refine ⟨rfl, rfl, frame _ n, ?_⟩
  intro i
  have hOpr := (frame (getOPRecord pull serialize hash base) i).1
  show mineStep hash (mineRun hash (getOPRecord pull serialize hash base) i) i = _
  unfold mineStep
  simp only [hOpr]

/-- C1: for every record and every config in which `Miner.Protocol` and
`Miner.Network` resolve, `Validate` returns true iff all of the structural
rules hold — the record's chain id matches the process-wide chain id (the
cached global when non-empty, otherwise the value derived from this
config), the payout address decodes with prefix `tPNT`, no asset value is
zero except the exempt symbol `PNT`, and the asset map contains every
required asset.  The iff also gives that making any single rule fail makes
`Validate` return false; the checks short-circuit in source order in the
definition of `validate`, and `validate` is a total function, so malformed
input yields `false` rather than a panic. -/
theorem validate_true_iff (env : ChainEnv) (global : String)
    (opr : OraclePriceRecord) (c : GoConfig) (protocol network : String)
    (hp : c.minerProtocol = some protocol) (hn : c.minerNetwork = some network) :
    (validate env global opr c).1 = true ↔
      (opr.oprChainID = effectiveChainID env global protocol network
        ∧ (∃ raw, env.convertPegAddrToRaw opr.coinbasePNTAddress = some ("tPNT", raw))
        ∧ (∀ kv ∈ opr.assets, kv.2 = 0 → kv.1 = "PNT")
        ∧ assetsContain opr.assets env.allAssets = true) := by
  simp only [validate, hp, hn]
  by_cases h1 : opr.oprChainID = effectiveChainID env global protocol network
  · rw [if_neg (not_not_intro h1)]
    rcases hcv : env.convertPegAddrToRaw opr.coinbasePNTAddress with _ | ⟨pre, raw⟩
    · simp [h1]
    · dsimp only
      by_cases h2 : pre = "tPNT"
      · subst h2
        rw [if_neg (not_not_intro rfl)]
        cases h3 : (opr.assets.any fun kv => decide (kv.2 = 0 ∧ kv.1 ≠ "PNT")) with
        | true =>
          rw [if_pos rfl]
          simp only [List.any_eq_true, decide_eq_true_eq] at h3
          obtain ⟨kv, hmem, hz, hne⟩ := h3
          simp [h1, hcv]
          intro hall
          exact absurd (hall kv.1 kv.2 hmem hz) hne
        | false =>
          rw [if_neg Bool.false_ne_true]
          have hall : ∀ kv ∈ opr.assets, kv.2 = 0 → kv.1 = "PNT" := by
            intro kv hmem hz
            by_contra hne
            have : (opr.assets.any fun kv => decide (kv.2 = 0 ∧ kv.1 ≠ "PNT")) = true :=
              List.any_eq_true.mpr ⟨kv, hmem, by simp [hz, hne]⟩
            rw [h3] at this
            exact Bool.false_ne_true this
          cases h4 : assetsContain opr.assets env.allAssets with
          | true =>
            rw [if_neg (not_not_intro rfl)]
            simp [h1, hcv, h4]
            exact fun a b hmem hz => hall (a, b) hmem hz
          | false =>
            rw [if_pos Bool.false_ne_true]
            simp [h1, hcv, h4]
      · rw [if_pos h2]
        simp [h1, hcv, h2]
  · rw [if_pos h1]
    simp [h1]

/-- Witness for C1 at a concrete record passing all four rules. -/
theorem validate_true_iff_witness :
    (validate exampleEnv ("") { exampleRecordA with oprChainID := "PN" }
      exampleConfig).1 = true :=
  (validate_true_iff exampleEnv ("") { exampleRecordA with oprChainID := "PN" }
      exampleConfig ("P") ("N") rfl rfl).mpr
    ⟨by decide, ⟨[], rfl⟩, by decide, by decide⟩

/-- C6 counterexample: with the process-wide `OPRChainID` global already
caching the value `A` from earlier in the process's lifetime, a record whose
chain id field is `A` passes `Validate` even though it differs from the
value derived from the current config's protocol and network — the lazy
cache at opr.go lines 91-93 is consulted instead of re-deriving. -/
theorem validate_stale_cache_counterexample :
    (validate exampleEnv ("A") exampleRecordA exampleConfig).1 = true
    ∧ exampleRecordA.oprChainID ≠ exampleEnv.derive ("P") ("N") := by
  exact ⟨by decide, by decide⟩

/-- C6 amended: `Validate` returns false whenever the record's chain id
field differs from the process-wide chain id actually used by the check —
the value cached earlier in the process's lifetime when the global is
non-empty, and the value freshly derived from this config's protocol and
network plus the fixed chain tag only when the cache is still empty. -/
theorem validate_chain_mismatch_false (env : ChainEnv) (global : String)
    (opr : OraclePriceRecord) (c : GoConfig) (protocol network : String)
    (hp : c.minerProtocol = some protocol) (hn : c.minerNetwork = some network)
    (hne : opr.oprChainID ≠ effectiveChainID env global protocol network) :
    (validate env global opr c).1 = false := by
  simp only [validate, hp, hn]
  rw [if_pos hne]

/-- Witness for C6's amended theorem: the stale cached value `A` makes a
record carrying the freshly derived chain id `PN` fail validation. -/
theorem validate_chain_mismatch_false_witness :
    (validate exampleEnv ("A") { exampleRecordA with oprChainID := "PN" }
      exampleConfig).1 = false :=
  validate_chain_mismatch_false exampleEnv ("A")
    { exampleRecordA with oprChainID := "PN" } exampleConfig ("P") ("N") rfl rfl
    (by decide)

/-- Witness for C4: difficulty after zero iterations is at most the
difficulty after one iteration, instantiating the monotonicity clause. -/
theorem mine_monotone_witness :
    (mineRun (fun _ => List.range 32) exampleRecordA 0).difficulty ≤
      (mineRun (fun _ => List.range 32) exampleRecordA 1).difficulty :=
  (mine_monotone_and_updates_together (fun _ => List.range 32) exampleRecordA).1
    0 1 (by norm_num)

/-- C8: for every connection whose decode stream is some successfully
decoded messages followed by a decode failure (including the peer closing
the socket, which surfaces as a non-nil error), the read loop delivers the
message-received callback exactly for the messages before the failure, then
closes the socket and invokes the connection-closed callback exactly once,
carrying that decode error; from the connection-closed event on, nothing
further is delivered — in particular no message-received callback — no
matter what follows on the stream. -/
theorem listen_decode_failure {M E : Type} (msgs : List M) (e : E)
    (rest : List (Except E M)) :
    Pegnet.listen (msgs.map Except.ok ++ Except.error e :: rest)
      = NetEvent.newClient :: (msgs.map NetEvent.msgReceived
          ++ [NetEvent.sockClose, NetEvent.connClosed e])
    ∧ (Pegnet.listen (msgs.map Except.ok ++ Except.error e :: rest)).countP isConnClosed = 1
    ∧ (Pegnet.listen (msgs.map Except.ok ++ Except.error e :: rest)).dropWhile
        (fun ev => !isConnClosed ev) = [NetEvent.connClosed e] := by
  have hloop : listenLoop (msgs.map Except.ok ++ Except.error e :: rest)
      = msgs.map NetEvent.msgReceived
          ++ [NetEvent.sockClose, NetEvent.connClosed e] := by
    induction msgs with
    | nil => rfl
    | cons m ms ih => simp [listenLoop, ih]
  refine ⟨by simp [Pegnet.listen, hloop], ?_, ?_⟩
  · simp [Pegnet.listen, hloop, List.countP_append, List.countP_cons, List.countP_map,
      isConnClosed, Function.comp]
  · simp only [Pegnet.listen, hloop]
    rw [List.dropWhile_cons_of_pos (by simp [isConnClosed])]
    induction msgs with
    | nil =>
      simp [List.dropWhile, isConnClosed]
    | cons m ms ih =>
      simp [List.dropWhile, isConnClosed]

/-- Round-trip of an 8-byte big-endian field. -/
theorem fromBytes8_toBytes8 (n : ℕ) (h : n < 2 ^ 64) :
    fromBytes8 (toBytes8 n) = n := by
  simp [toBytes8, fromBytes8]
  omega

/-- C9 (spec-modelled wire format): encoding a network message on one
endpoint and decoding it on the other yields a message whose integer
command code and data payload equal the original's exactly, and consumes
exactly the encoded bytes off the stream — encode followed by decode is the
identity on messages whose command code fits a 64-bit Go `int` and whose
payload is a byte sequence of 64-bit length. -/
theorem message_roundtrip (m : NetworkMessage) (rest : List ℕ)
    (hlo : -(2 ^ 63) ≤ m.networkCommand) (hhi : m.networkCommand < 2 ^ 63)
    (hlen : m.data.length < 2 ^ 64) (hby : ∀ b ∈ m.data, b < 256) :
    decodeMessage (encodeMessage m ++ rest) = some (m, rest) := by
  rcases m with ⟨cmd, data⟩
  dsimp only at hlo hhi hlen hby
  set u := (cmd % 2 ^ 64).toNat with hu
  have hu64 : u < 2 ^ 64 := by
    have h0 : 0 ≤ cmd % 2 ^ 64 := Int.emod_nonneg cmd (by norm_num)
    have h1 : cmd % 2 ^ 64 < 2 ^ 64 := Int.emod_lt_of_pos cmd (by norm_num)
    omega
  have hC : (toBytes8 u).length = 8 := rfl
  have hL : (toBytes8 data.length).length = 8 := rfl
  have key : encodeMessage ⟨cmd, data⟩ ++ rest
      = toBytes8 u ++ (toBytes8 data.length ++ (data ++ rest)) := by
    simp [encodeMessage, List.append_assoc, hu]
  rw [key]
  unfold decodeMessage
  rw [if_pos (by simp; omega)]
  rw [List.take_left' hC, List.drop_left' hC, List.take_left' hL, List.drop_left' hL]
  rw [fromBytes8_toBytes8 u hu64, fromBytes8_toBytes8 data.length hlen]
  rw [if_pos (by simp)]
  rw [List.take_left' rfl, List.drop_left' rfl]
  have h0 : 0 ≤ cmd % 2 ^ 64 := Int.emod_nonneg cmd (by norm_num)
  have haux : ((cmd % 2 ^ 64).toNat : ℤ) = cmd % 2 ^ 64 := Int.toNat_of_nonneg h0
  rw [← hu] at haux
  simp only [Option.some.injEq, Prod.mk.injEq, NetworkMessage.mk.injEq]
  refine ⟨⟨?_, trivial⟩, trivial⟩
  clear_value u
  split_ifs <;> omega

/-- Witness for C9 at a concrete message with a negative command code. -/
theorem message_roundtrip_witness :
    decodeMessage (encodeMessage ⟨-5, [1, 2]⟩ ++ [7]) = some (⟨-5, [1, 2]⟩, [7]) :=
  message_roundtrip ⟨-5, [1, 2]⟩ [7] (by norm_num) (by norm_num) (by norm_num)
    (by decide)

/-- The winner loop completes without the out-of-range branch exactly when
the remaining winners fit in the array from the start index on. -/
theorem writeWinners_isSome (ws : List (List ℕ)) (k : ℕ) (arr : Fin 10 → String) :
    (writeWinners ws k arr).isSome = true ↔ (ws = [] ∨ k + ws.length ≤ 10) := by
  induction ws generalizing k arr with
  | nil => simp [writeWinners]
  | cons w rest ih =>
    simp only [writeWinners]
    by_cases h : k < 10
    · rw [dif_pos h, ih]
      simp only [List.length_cons]
      constructor
      · rintro (rfl | hle)
        · right
          simp only [List.length_nil]
          omega
        · right
          omega
      · rintro (habs | hle)
        · cases habs
        · right; omega
    · rw [dif_neg h]
      simp only [Option.isSome_none, Bool.false_eq_true, false_iff, not_or]
      refine ⟨by simp, ?_⟩
      simp only [List.length_cons]
      omega

/-- Contents written by the winner loop: slot `i` receives the hex encoding
of the first 8 bytes of the winner at offset `i - k`, and slots outside the
written range keep their previous contents. -/
theorem writeWinners_get (ws : List (List ℕ)) (k : ℕ) (arr : Fin 10 → String)
    (out : Fin 10 → String) (hout : writeWinners ws k arr = some out) (i : Fin 10) :
    ((k ≤ (i : ℕ) ∧ (i : ℕ) < k + ws.length) →
        out i = hexEncode ((ws.getD ((i : ℕ) - k) []).take 8))
    ∧ (((i : ℕ) < k ∨ k + ws.length ≤ (i : ℕ)) → out i = arr i) := by
  induction ws generalizing k arr with
  | nil =>
    simp only [writeWinners, Option.some.injEq] at hout
    subst hout
    refine ⟨fun hcon => ?_, fun _ => rfl⟩
    simp only [List.length_nil] at hcon
    omega
  | cons w rest ih =>
    simp only [writeWinners] at hout
    by_cases h : k < 10
    · rw [dif_pos h] at hout
      have IH := ih (k + 1) (Function.update arr ⟨k, h⟩ (hexEncode (w.take 8))) hout
      simp only [List.length_cons]
      constructor
      · rintro ⟨hk, hlt⟩
        by_cases hik : (i : ℕ) = k
        · have heq := IH.2 (Or.inl (by omega))
          have hidx : (i : ℕ) - k = 0 := by omega
          rw [heq, hidx, List.getD_cons_zero,
            show i = (⟨k, h⟩ : Fin 10) from Fin.ext hik, Function.update_same]
        · have hk1 : k + 1 ≤ (i : ℕ) := by omega
          have heq := IH.1 ⟨hk1, by omega⟩
          rw [heq]
          have hidx : (i : ℕ) - k = ((i : ℕ) - (k + 1)) + 1 := by omega
          rw [hidx, List.getD_cons_succ]
      · rintro (hlt | hge)
        · have heq := IH.2 (Or.inl (by omega))
          rw [heq, Function.update_noteq (fun heq2 => by
            have : (i : ℕ) = k := congrArg Fin.val heq2
            omega)]
        · have heq := IH.2 (Or.inr (by omega))
          rw [heq, Function.update_noteq (fun heq2 => by
            have : (i : ℕ) = k := congrArg Fin.val heq2
            omega)]
    · rw [dif_neg h] at hout
      cases hout

/-- C10: `NewOpr` writes the received winner slate into the fixed 10-slot
`WinPreviousOPR` array by position with no bound check, so the loop stays
in bounds (taking the `some` branch rather than the modelled panic) iff the
incoming winner list has at most 10 entries; under that precondition the
out-of-range branch is unreachable, slot `i` stores the hex encoding of the
first 8 bytes of winner `i`'s entry hash, and the remaining slots keep the
fresh record's zero values. -/
theorem newOpr_winners_safe (ws : List (List ℕ)) (init : Fin 10 → String) :
    ((newOprWinners ws init).isSome = true ↔ ws.length ≤ 10)
    ∧ ∀ out, newOprWinners ws init = some out → ∀ i : Fin 10,
        ((i : ℕ) < ws.length → out i = hexEncode ((ws.getD (i : ℕ) []).take 8))
        ∧ (ws.length ≤ (i : ℕ) → out i = init i) := by
  constructor
  · rw [newOprWinners, writeWinners_isSome]
    constructor
    · rintro (rfl | h)
      · simp
      · omega
    · intro h
      right
      omega
  · intro out hout i
    have H := writeWinners_get ws 0 init out hout i
    exact ⟨fun hi => by simpa using H.1 ⟨Nat.zero_le _, by omega⟩,
      fun hi => H.2 (Or.inr (by omega))⟩

/-- Witness for C10: a single-winner slate stays in bounds. -/
theorem newOpr_winners_safe_witness :
    (newOprWinners [[1, 2, 3]] (fun _ => "")).isSome = true :=
  (newOpr_winners_safe [[1, 2, 3]] (fun _ => "")).1.mpr (by norm_num)
